import Mathlib

/-
  Verification development for the UQpy sampling / surrogate toolkit.

  Shallow embedding of the numerically relevant parts of
  src/UQpy/SampleMethods.py (Strata, RSS splitting, MCMC, IS) and
  src/UQpy/Surrogates.py (Krig).  Floating-point values are modelled as
  exact rationals (ℚ) where executability is needed and as reals (ℝ)
  where the genuine log/exp semantics matter.  Randomness is modelled by
  explicit oracle streams: one stream position per call site, matching
  the library's single shared pseudo-random source.  External LAPACK
  calls (cholesky, inv, qr, solve, det) and the transcendental float
  functions are likewise passed in as function parameters.
-/

namespace UQpy

/-- A point of the d-dimensional space, one rational per coordinate. -/
abbrev Vec (d : ℕ) := Fin d → ℚ

/-- Product of the per-axis entries of one row (`np.prod(row)`). -/
def prodRow {d : ℕ} (w : Vec d) : ℚ := ∏ i, w i

/-- Source `np.sum(np.prod(widths, 1))`: total volume of a list of boxes. -/
def volume {d : ℕ} (ws : List (Vec d)) : ℚ := (ws.map prodRow).sum

/-! ### Strata (SampleMethods.py, class Strata) -/

/-- Entry (k, i) of the pyDOE-style full-factorial design built by
`Strata.fullfact`: column i repeats each level `∏_{j<i} levels j` times,
so row k carries the mixed-radix digit `(k / ∏_{j<i} levels j) % levels i`. -/
def fullfactEntry {d : ℕ} (levels : Fin d → ℕ) (k : ℕ) (i : Fin d) : ℕ :=
  (k / ∏ j ∈ Finset.Iio i, levels j) % levels i

/-- Source `origins = np.divide(self.fullfact(n_strata), n_strata)` (Strata.__init__). -/
def strataOrigins {d : ℕ} (levels : Fin d → ℕ) : List (Vec d) :=
  (List.range (∏ i, levels i)).map
    (fun k => fun i => (fullfactEntry levels k i : ℚ) / (levels i : ℚ))

/-- Source `widths = np.divide(np.ones(origins.shape), n_strata)` (Strata.__init__). -/
def strataWidths {d : ℕ} (levels : Fin d → ℕ) : List (Vec d) :=
  List.replicate (∏ i, levels i) (fun i => 1 / (levels i : ℚ))

/-- State carried by RSS: stratum origins, widths, weights, and the
unit-hypercube samples (one pre-existing sample per stratum). -/
structure SDesign (d : ℕ) where
  origins : List (Vec d)
  widths : List (Vec d)
  weights : List ℚ
  samplesU01 : List (Vec d)

/-- Full-factorial construction (Strata.__init__ with n_strata given):
`weights = np.prod(widths, axis=1)`.  The initial samples come from the
caller (an STS-style design), one per stratum. -/
def strataFF {d : ℕ} (levels : Fin d → ℕ) (samples0 : List (Vec d)) : SDesign d :=
  ⟨strataOrigins levels, strataWidths levels, (strataWidths levels).map prodRow, samples0⟩

/-- The zero point, used as the `getD` fallback (never reached on valid input). -/
def zeroVec (d : ℕ) : Vec d := fun _ => 0

/-- One split step of RSS.run_rss (SampleMethods.py lines 713-732):
halve `widths[bin][dir]`, append the halved row; append a copy of
`origins[bin]`, then shift EITHER the appended row or row `bin` along
`dir` by the halved width, depending on whether the pre-existing sample
of stratum `bin` lies in the lower half; halve `weights[bin]` and append
a copy; draw one new sample (oracle `newPt`) and append it. -/
def rssSplit {d : ℕ} (st : SDesign d) (bin : ℕ) (dir : Fin d) (newPt : Vec d) : SDesign d :=
  let wrow := st.widths.getD bin (zeroVec d)
  let wrow2 := Function.update wrow dir (wrow dir / 2)
  let widths2 := (st.widths.set bin wrow2) ++ [wrow2]
  let orow := st.origins.getD bin (zeroVec d)
  let sp := st.samplesU01.getD bin (zeroVec d)
  let origins2 :=
    if sp dir < orow dir + wrow2 dir then
      st.origins ++ [Function.update orow dir (orow dir + wrow2 dir)]
    else
      (st.origins.set bin (Function.update orow dir (orow dir + wrow2 dir))) ++ [orow]
  let wb := st.weights.getD bin 0
  let weights2 := (st.weights.set bin (wb / 2)) ++ [wb / 2]
  ⟨origins2, widths2, weights2, st.samplesU01 ++ [newPt]⟩

/-- A split request: stratum index, cut direction, and the freshly drawn
point for the new empty half-stratum. -/
abbrev SplitOp (d : ℕ) := ℕ × Fin d × Vec d

/-- Apply a finite sequence of split operations. -/
def applyOps {d : ℕ} (st : SDesign d) : List (SplitOp d) → SDesign d
  | [] => st
  | op :: rest => applyOps (rssSplit st op.1 op.2.1 op.2.2) rest

/-- All split indices are in range at the moment they are executed (the
Python code would raise IndexError otherwise).  Every split grows the
stratum count by exactly one, so validity is a pure count check. -/
def validCount {d : ℕ} : ℕ → List (SplitOp d) → Bool
  | _, [] => true
  | n, op :: rest => decide (op.1 < n) && validCount (n + 1) rest

/-- File-based construction (Strata.__init__ with input_file): verify the
space-filling invariant within 1e-5 and assign the weights. -/
def loadStrata {d : ℕ} (origins widths : List (Vec d)) :
    Except String (List (Vec d) × List (Vec d) × List ℚ) :=
  let space_fill := volume widths
  if 1 - space_fill > 1 / 100000 then
    Except.error "Error: The stratum design is not space-filling."
  else if 1 - space_fill < -(1 / 100000) then
    Except.error "Error: The stratum design is over-filling."
  else
    Except.ok (origins, widths, widths.map prodRow)

/-! ### Helper lemmas about sums over modified lists -/

theorem sumMap_set {α : Type} (f : α → ℚ) (dflt a : α) :
    ∀ (l : List α) (n : ℕ), n < l.length →
      ((l.set n a).map f).sum = (l.map f).sum - f (l.getD n dflt) + f a := by
  intro l
  induction l with
  | nil => intro n h; simp at h
  | cons x xs ih =>
    intro n h
    cases n with
    | zero => simp [List.getD]; ring
    | succ m =>
      have hm : m < xs.length := by simpa using h
      simp only [List.set, List.map_cons, List.sum_cons, List.getD_cons_succ]
      rw [ih m hm]
      ring

theorem getD_map_prodRow {d : ℕ} (l : List (Vec d)) (n : ℕ) (h : n < l.length) :
    (l.map prodRow).getD n 0 = prodRow (l.getD n (zeroVec d)) := by
  rw [List.getD_eq_getElem l (zeroVec d) h,
      List.getD_eq_getElem (l.map prodRow) 0 (by simpa using h)]
  simp

theorem weights_length_of_map {d : ℕ} (st : SDesign d)
    (hw : st.weights = st.widths.map prodRow) :
    st.weights.length = st.widths.length := by
  rw [hw, List.length_map]

theorem rssSplit_widths_length {d : ℕ} (st : SDesign d) (bin : ℕ) (dir : Fin d)
    (p : Vec d) :
    (rssSplit st bin dir p).widths.length = st.widths.length + 1 := by
  simp [rssSplit]

theorem prodRow_update_half {d : ℕ} (w : Vec d) (dir : Fin d) :
    prodRow (Function.update w dir (w dir / 2)) = prodRow w / 2 := by
  unfold prodRow
  rw [← Finset.mul_prod_erase Finset.univ w (Finset.mem_univ dir),
      ← Finset.mul_prod_erase Finset.univ (Function.update w dir (w dir / 2))
        (Finset.mem_univ dir)]
  rw [Function.update_same]
  have h : ∀ i ∈ Finset.univ.erase dir,
      Function.update w dir (w dir / 2) i = w i := by
    intro i hi
    exact Function.update_noteq (Finset.ne_of_mem_erase hi) _ w
  rw [Finset.prod_congr rfl h]
  ring

/-- One split preserves the total volume and the weight = product-of-widths
invariant. -/
theorem rssSplit_invariant {d : ℕ} (st : SDesign d) (bin : ℕ) (dir : Fin d)
    (p : Vec d) (hb : bin < st.widths.length)
    (hw : st.weights = st.widths.map prodRow) :
    volume (rssSplit st bin dir p).widths = volume st.widths ∧
      (rssSplit st bin dir p).weights = (rssSplit st bin dir p).widths.map prodRow := by
  have hwb : st.weights.getD bin 0 =
      prodRow (st.widths.getD bin (zeroVec d)) := by
    rw [hw]; exact getD_map_prodRow st.widths bin hb
  have hwidths : (rssSplit st bin dir p).widths =
      (st.widths.set bin (Function.update (st.widths.getD bin (zeroVec d)) dir
        (st.widths.getD bin (zeroVec d) dir / 2))) ++
      [Function.update (st.widths.getD bin (zeroVec d)) dir
        (st.widths.getD bin (zeroVec d) dir / 2)] := rfl
  have hweights : (rssSplit st bin dir p).weights =
      (st.weights.set bin (st.weights.getD bin 0 / 2)) ++
      [st.weights.getD bin 0 / 2] := rfl
  constructor
  · rw [hwidths]
    unfold volume
    rw [List.map_append, List.sum_append]
    rw [sumMap_set prodRow (zeroVec d) _ st.widths bin hb]
    simp only [List.map_cons, List.map_nil, List.sum_cons, List.sum_nil]
    rw [prodRow_update_half]
    ring
  · rw [hwidths, hweights]
    rw [List.map_append, List.map_set, ← hw]
    rw [prodRow_update_half, hwb]
    simp [prodRow_update_half, hwb]

/-- The invariants survive any valid sequence of splits. -/
theorem applyOps_invariant {d : ℕ} :
    ∀ (ops : List (SplitOp d)) (st : SDesign d),
      validCount st.widths.length ops = true →
      st.weights = st.widths.map prodRow →
      volume (applyOps st ops).widths = volume st.widths ∧
        (applyOps st ops).weights = (applyOps st ops).widths.map prodRow := by
  intro ops
  induction ops with
  | nil => intro st _ hw; exact ⟨rfl, hw⟩
  | cons op rest ih =>
    intro st hv hw
    simp only [validCount, Bool.and_eq_true, decide_eq_true_eq] at hv
    obtain ⟨hb, hrest⟩ := hv
    have hstep := rssSplit_invariant st op.1 op.2.1 op.2.2 hb hw
    have hlen : (rssSplit st op.1 op.2.1 op.2.2).widths.length =
        st.widths.length + 1 := rssSplit_widths_length st op.1 op.2.1 op.2.2
    have := ih (rssSplit st op.1 op.2.1 op.2.2) (by rw [hlen]; exact hrest) hstep.2
    exact ⟨by rw [applyOps, this.1, hstep.1], by rw [applyOps]; exact this.2⟩

theorem strataFF_volume {d : ℕ} (levels : Fin d → ℕ) (s0 : List (Vec d))
    (hl : ∀ i, 1 ≤ levels i) : volume (strataFF levels s0).widths = 1 := by
  unfold strataFF volume strataWidths
  rw [List.map_replicate, List.sum_replicate]
  have hrow : prodRow (fun i => 1 / (levels i : ℚ)) = ∏ i, ((levels i : ℚ))⁻¹ := by
    unfold prodRow; simp [one_div]
  rw [hrow, nsmul_eq_mul]
  push_cast
  rw [← Finset.prod_mul_distrib]
  rw [Finset.prod_congr rfl (fun i _ => mul_inv_cancel₀
    (by exact_mod_cast Nat.one_le_iff_ne_zero.mp (hl i) : ((levels i : ℚ)) ≠ 0))]
  simp

/-- C2: for every stratum partition built by full-factorial construction and
after every valid finite sequence of split operations, the total volume
Σ_k ∏_axis width[k][axis] equals 1 and every stratum's weight equals the
product of its per-axis widths. -/
theorem strataVolumeInvariant {d : ℕ} (levels : Fin d → ℕ) (s0 : List (Vec d))
    (ops : List (SplitOp d)) (hl : ∀ i, 1 ≤ levels i)
    (hv : validCount (strataFF levels s0).widths.length ops = true) :
    volume (applyOps (strataFF levels s0) ops).widths = 1 ∧
      (applyOps (strataFF levels s0) ops).weights =
        (applyOps (strataFF levels s0) ops).widths.map prodRow := by
  have hw0 : (strataFF levels s0).weights = (strataFF levels s0).widths.map prodRow := rfl
  have h := applyOps_invariant ops (strataFF levels s0) hv hw0
  exact ⟨by rw [h.1, strataFF_volume levels s0 hl], h.2⟩

/-- Witness for C2 at a concrete one-axis design with two splits. -/
theorem strataVolumeInvariantWitness :
    (∀ i : Fin 1, 1 ≤ (fun _ : Fin 1 => 1) i) ∧
    validCount (strataFF (fun _ : Fin 1 => 1) [zeroVec 1]).widths.length
      [(0, 0, zeroVec 1), (1, 0, zeroVec 1)] = true ∧
    volume (applyOps (strataFF (fun _ : Fin 1 => 1) [zeroVec 1])
      [(0, 0, zeroVec 1), (1, 0, zeroVec 1)]).widths = 1 := by
  refine ⟨by decide, by decide, ?_⟩
  exact (strataVolumeInvariant (fun _ : Fin 1 => 1) [zeroVec 1]
    [(0, 0, zeroVec 1), (1, 0, zeroVec 1)] (by decide) (by decide)).1

/-! ### C3: exact tiling of a split stratum -/

/-- C3 (amended): which-half bookkeeping of one split.  After the split both
widths along the axis are halved and the other axes unchanged, and the two
boxes exactly tile the old one; but which stratum gets the far half depends
on the pre-existing sample of stratum `bin`: if the sample lies in the lower
half, the appended stratum is moved up (as the claim says), otherwise the
ORIGINAL stratum's origin is moved up and the appended one keeps the old
origin. -/
theorem rssSplit_tiles {d : ℕ} (st : SDesign d) (bin : ℕ) (dir : Fin d)
    (p : Vec d) (o w sp : Vec d)
    (hbo : bin < st.origins.length) (hbw : bin < st.widths.length)
    (ho : st.origins.getD bin (zeroVec d) = o)
    (hww : st.widths.getD bin (zeroVec d) = w)
    (hsp : st.samplesU01.getD bin (zeroVec d) = sp) :
    ((rssSplit st bin dir p).widths.getD bin (zeroVec d) =
        Function.update w dir (w dir / 2) ∧
      (rssSplit st bin dir p).widths.getD st.widths.length (zeroVec d) =
        Function.update w dir (w dir / 2)) ∧
    (if sp dir < o dir + w dir / 2 then
        (rssSplit st bin dir p).origins.getD bin (zeroVec d) = o ∧
          (rssSplit st bin dir p).origins.getD st.origins.length (zeroVec d) =
            Function.update o dir (o dir + w dir / 2)
      else
        (rssSplit st bin dir p).origins.getD bin (zeroVec d) =
            Function.update o dir (o dir + w dir / 2) ∧
          (rssSplit st bin dir p).origins.getD st.origins.length (zeroVec d) = o) := by
  subst ho hww hsp
  set o := st.origins.getD bin (zeroVec d) with hodef
  set w := st.widths.getD bin (zeroVec d) with hwdef
  set sp := st.samplesU01.getD bin (zeroVec d) with hspdef
  set st2 := rssSplit st bin dir p with hst2
  have hwid : st2.widths =
      (st.widths.set bin (Function.update w dir (w dir / 2))) ++
        [Function.update w dir (w dir / 2)] := rfl
  have horig : st2.origins =
      if sp dir < o dir + Function.update w dir (w dir / 2) dir then
        st.origins ++ [Function.update o dir (o dir + Function.update w dir (w dir / 2) dir)]
      else
        (st.origins.set bin
          (Function.update o dir (o dir + Function.update w dir (w dir / 2) dir))) ++ [o] := rfl
  have hupd : Function.update w dir (w dir / 2) dir = w dir / 2 :=
    Function.update_same dir (w dir / 2) w
  constructor
  · constructor
    · rw [hwid]
      rw [List.getD_eq_getElem _ _ (by simp [Nat.lt_succ_of_lt hbw] : bin < _)]
      rw [List.getElem_append_left (by simpa using hbw)]
      simp [List.getElem_set, hbw]
    · rw [hwid]
      rw [List.getD_eq_getElem _ _ (by simp : st.widths.length < _)]
      simp
  · rw [horig, hupd]
    by_cases hcmp : sp dir < o dir + w dir / 2
    · simp only [if_pos hcmp]
      constructor
      · rw [List.getD_eq_getElem _ _ (by simp [Nat.lt_succ_of_lt hbo] : bin < _)]
        rw [List.getElem_append_left hbo]
        exact (List.getD_eq_getElem st.origins (zeroVec d) hbo).symm
      · rw [List.getD_eq_getElem _ _ (by simp : st.origins.length < _)]
        simp
    · simp only [if_neg hcmp]
      constructor
      · rw [List.getD_eq_getElem _ _
          (by simp [Nat.lt_succ_of_lt hbo] : bin < _)]
        rw [List.getElem_append_left (by simpa using hbo)]
        simp [List.getElem_set, hbo]
      · rw [List.getD_eq_getElem _ _ (by simp : st.origins.length < _)]
        simp

/-- A one-dimensional design with a single stratum [0,1) whose pre-existing
sample 3/4 lies in the UPPER half of the stratum. -/
def cexDesign : SDesign 1 :=
  ⟨[fun _ => 0], [fun _ => 1], [1], [fun _ => 3 / 4]⟩

/-- C3 counterexample: splitting the single stratum of `cexDesign` along its
only axis MOVES the original stratum's origin to 1/2 and leaves the appended
stratum at origin 0, because the pre-existing sample 3/4 lies in the upper
half — contradicting the claim that the appended stratum always takes the
far half while the original origin is unchanged. -/
theorem splitOriginCounterexample :
    (rssSplit cexDesign 0 0 (zeroVec 1)).origins.getD 0 (zeroVec 1) 0 = 1 / 2 ∧
    (rssSplit cexDesign 0 0 (zeroVec 1)).origins.getD 1 (zeroVec 1) 0 = 0 ∧
    ¬ ((rssSplit cexDesign 0 0 (zeroVec 1)).origins.getD 1 (zeroVec 1) 0 = 0 + 1 / 2 ∧
       (rssSplit cexDesign 0 0 (zeroVec 1)).origins.getD 0 (zeroVec 1) 0 = 0) := by
  have hc : ¬ ((3 / 4 : ℚ) < 0 + 1 / 2) := by norm_num
  simp only [rssSplit, cexDesign, zeroVec, List.getD_cons_zero, List.getD_cons_succ,
    Function.update_same, hc, if_false, List.set]
  norm_num [List.getD]

/-- Witness for the amended C3 theorem at a concrete split. -/
theorem rssSplit_tilesWitness :
    (0 < cexDesign.origins.length ∧ 0 < cexDesign.widths.length ∧
      cexDesign.origins.getD 0 (zeroVec 1) = (fun _ => 0) ∧
      cexDesign.widths.getD 0 (zeroVec 1) = (fun _ => 1) ∧
      cexDesign.samplesU01.getD 0 (zeroVec 1) = (fun _ => 3 / 4)) ∧
    (((rssSplit cexDesign 0 0 (zeroVec 1)).widths.getD 0 (zeroVec 1) =
        Function.update (fun _ => (1 : ℚ)) 0 ((fun _ => (1 : ℚ)) 0 / 2) ∧
      (rssSplit cexDesign 0 0 (zeroVec 1)).widths.getD cexDesign.widths.length (zeroVec 1) =
        Function.update (fun _ => (1 : ℚ)) 0 ((fun _ => (1 : ℚ)) 0 / 2)) ∧
    (if (fun _ => (3 / 4 : ℚ)) 0 < (fun _ => (0 : ℚ)) 0 + (fun _ => (1 : ℚ)) 0 / 2 then
        (rssSplit cexDesign 0 0 (zeroVec 1)).origins.getD 0 (zeroVec 1) = (fun _ => 0) ∧
          (rssSplit cexDesign 0 0 (zeroVec 1)).origins.getD cexDesign.origins.length (zeroVec 1) =
            Function.update (fun _ => (0 : ℚ)) 0
              ((fun _ => (0 : ℚ)) 0 + (fun _ => (1 : ℚ)) 0 / 2)
      else
        (rssSplit cexDesign 0 0 (zeroVec 1)).origins.getD 0 (zeroVec 1) =
            Function.update (fun _ => (0 : ℚ)) 0
              ((fun _ => (0 : ℚ)) 0 + (fun _ => (1 : ℚ)) 0 / 2) ∧
          (rssSplit cexDesign 0 0 (zeroVec 1)).origins.getD cexDesign.origins.length (zeroVec 1) =
            (fun _ => 0))) :=
  ⟨⟨by decide, by decide, rfl, rfl, rfl⟩,
    rssSplit_tiles cexDesign 0 0 (zeroVec 1) (fun _ => 0) (fun _ => 1) (fun _ => 3 / 4)
      (by decide) (by decide) rfl rfl rfl⟩

/-! ### C8: file-based Strata construction check -/

/-- C8: loading a persisted origins+widths table succeeds (assigning each
stratum's weight as the product of its widths) exactly when the total volume
is within 1e-5 of 1; it is fatal with the not-space-filling message exactly
when the volume falls short by more than 1e-5, and fatal with the
over-filling message exactly when it exceeds by more than 1e-5. -/
theorem strataLoadSpaceFillCheck {d : ℕ} (origins widths : List (Vec d)) :
    (loadStrata origins widths = Except.ok (origins, widths, widths.map prodRow) ↔
      |volume widths - 1| ≤ 1 / 100000) ∧
    (loadStrata origins widths =
        Except.error "Error: The stratum design is not space-filling." ↔
      volume widths < 1 - 1 / 100000) ∧
    (loadStrata origins widths =
        Except.error "Error: The stratum design is over-filling." ↔
      1 + 1 / 100000 < volume widths) := by
  unfold loadStrata
  by_cases h1 : 1 - volume widths > 1 / 100000
  · rw [if_pos h1]
    refine ⟨?_, ?_, ?_⟩
    · constructor
      · intro h; exact Except.noConfusion h
      · intro h; exfalso; have := (abs_le.mp h).1; linarith
    · constructor
      · intro _; linarith
      · intro _; rfl
    · constructor
      · intro h
        rw [Except.error.injEq] at h
        exact absurd h (by decide)
      · intro h; exfalso; linarith
  · by_cases h2 : 1 - volume widths < -(1 / 100000)
    · rw [if_neg h1, if_pos h2]
      refine ⟨?_, ?_, ?_⟩
      · constructor
        · intro h; exact Except.noConfusion h
        · intro h; exfalso; have := (abs_le.mp h).2; linarith
      · constructor
        · intro h
          rw [Except.error.injEq] at h
          exact absurd h (by decide)
        · intro h; exfalso; linarith
      · constructor
        · intro _; linarith
        · intro _; rfl
    · rw [if_neg h1, if_neg h2]
      refine ⟨?_, ?_, ?_⟩
      · constructor
        · intro _
          rw [abs_le]
          constructor <;> [linarith; linarith]
        · intro _; rfl
      · constructor
        · intro h; exact Except.noConfusion h
        · intro h; exfalso; linarith
      · constructor
        · intro h; exact Except.noConfusion h
        · intro h; exfalso; linarith

/-- Witness for C8: a single unit-width stratum loads successfully and gets
its product weight. -/
theorem strataLoadSpaceFillCheckWitness :
    |volume ([fun _ => 1] : List (Vec 1)) - 1| ≤ 1 / 100000 ∧
    loadStrata ([] : List (Vec 1)) [fun _ => 1] =
      Except.ok ([], [fun _ => 1], ([fun _ => 1] : List (Vec 1)).map prodRow) := by
  have hv : volume ([fun _ => (1 : ℚ)] : List (Vec 1)) = 1 := by
    simp [volume, prodRow]
  constructor
  · rw [hv]; norm_num
  · exact (strataLoadSpaceFillCheck [] [fun _ => 1]).1.mpr (by rw [hv]; norm_num)

/-! ### MCMC (SampleMethods.py, class MCMC)

The three transition kernels are embedded with explicit oracle streams:
`z` for the proposal-kernel draws (standard-normal variates, or standard
uniforms mapped onto `[-scale/2, scale/2]`), `logU` for the
`np.log(np.random.random())` acceptance draws, and for the Stretch
sampler a companion-choice stream and a stretch-uniform stream.  `logF`
stands for the float `np.log` applied to the computed stretch factor. -/

/-- The two supported proposal kernels. -/
inductive PropKind where
  | Normal : PropKind
  | Uniform : PropKind

/-- One coordinate of a proposal perturbation: `diag(scale) @ z` for the
Normal kernel, `uniform(-scale/2, scale/2)` (via a standard uniform `z`)
for the Uniform kernel. -/
def perturb (kind : PropKind) (scale z : ℚ) : ℚ :=
  match kind with
  | .Normal => scale * z
  | .Uniform => scale * z - scale / 2

/-- Python slice `xs[start:stop:step]` for `start ≤ stop ≤ len xs`, `step ≥ 1`. -/
def pySlice {α : Type} (xs : List α) (dflt : α) (start stop step : ℕ) : List α :=
  (List.range ((stop - start + step - 1) / step)).map
    (fun t => xs.getD (start + t * step) dflt)

/-- Markov chain state for MH: current position, cached log-target value,
and the running acceptance counter. -/
structure MHState (d : ℕ) where
  pos : Vec d
  lp : ℚ
  acc : ℕ

/-- One MH iteration (run_mcmc, algorithm == MH): propose a joint
perturbation of the full vector, accept iff
`log(random()) < log_p(candidate) - log_p(current)`. -/
def mhStep {d : ℕ} (logpdf : Vec d → ℚ) (kind : PropKind) (scale : Vec d)
    (z : ℕ → Vec d) (logU : ℕ → ℚ) (i : ℕ) (st : MHState d) : MHState d :=
  let candidate := fun k => st.pos k + perturb kind (scale k) (z i k)
  let lpc := logpdf candidate
  if logU i < lpc - st.lp then ⟨candidate, lpc, st.acc + 1⟩
  else ⟨st.pos, st.lp, st.acc⟩

/-- The MH chain after i iterations, seeded at `samples[0] = seed`. -/
def mhIter {d : ℕ} (logpdf : Vec d → ℚ) (kind : PropKind) (scale : Vec d)
    (z : ℕ → Vec d) (logU : ℕ → ℚ) (seed : Vec d) : ℕ → MHState d
  | 0 => ⟨seed, logpdf seed, 0⟩
  | i + 1 => mhStep logpdf kind scale z logU i (mhIter logpdf kind scale z logU seed i)

/-- The raw MH chain as a list of `nsamples*jump + nburn` states. -/
def mhChainList {d : ℕ} (logpdf : Vec d → ℚ) (kind : PropKind) (scale : Vec d)
    (z : ℕ → Vec d) (logU : ℕ → ℚ) (seed : Vec d) (len : ℕ) : List (Vec d) :=
  (List.range len).map (fun i => (mhIter logpdf kind scale z logU seed i).pos)

/-- MH output: `samples[nburn : nsamples*jump + nburn : jump]`. -/
def mhSamples {d : ℕ} (logpdf : Vec d → ℚ) (kind : PropKind) (scale : Vec d)
    (z : ℕ → Vec d) (logU : ℕ → ℚ) (seed : Vec d) (n jump nburn : ℕ) : List (Vec d) :=
  pySlice (mhChainList logpdf kind scale z logU seed (n * jump + nburn)) (zeroVec d)
    nburn (n * jump + nburn) jump

/-- MH acceptance rate: `n_accepts / (nsamples*jump - 1 + nburn)`. -/
def mhAccRate {d : ℕ} (logpdf : Vec d → ℚ) (kind : PropKind) (scale : Vec d)
    (z : ℕ → Vec d) (logU : ℕ → ℚ) (seed : Vec d) (n jump nburn : ℕ) : ℚ :=
  ((mhIter logpdf kind scale z logU seed (n * jump + nburn - 1)).acc : ℚ) /
    ((n * jump + nburn - 1 : ℕ) : ℚ)

/-- Markov chain state for component-wise MMH in marginal mode: current
position, per-coordinate cached log values, acceptance counter.  The
source initialises the cache from the raw (non-log) marginal pdf values;
the cache is therefore an arbitrary parameter here. -/
structure MMHState (d : ℕ) where
  pos : Vec d
  lps : Vec d
  acc : ℕ

/-- One outer MMH iteration in marginal mode (run_mcmc, algorithm == MMH,
pdf_target_type == marginal_pdf): every coordinate j proposes a 1-D
perturbation of `samples[i, j]` and accepts independently against its own
cached marginal log value; each acceptance bumps the shared counter. -/
def mmhMargStep {d : ℕ} (logpdfs : Fin d → ℚ → ℚ) (kinds : Fin d → PropKind)
    (scale : Vec d) (z : ℕ → Vec d) (logU : ℕ → Vec d) (i : ℕ)
    (st : MMHState d) : MMHState d :=
  let cand := fun j => st.pos j + perturb (kinds j) (scale j) (z i j)
  let accSet := Finset.univ.filter (fun j => logU i j < logpdfs j (cand j) - st.lps j)
  ⟨fun j => if j ∈ accSet then cand j else st.pos j,
   fun j => if j ∈ accSet then logpdfs j (cand j) else st.lps j,
   st.acc + accSet.card⟩

/-- The MMH (marginal mode) chain after i outer iterations. -/
def mmhMargIter {d : ℕ} (logpdfs : Fin d → ℚ → ℚ) (kinds : Fin d → PropKind)
    (scale : Vec d) (z : ℕ → Vec d) (logU : ℕ → Vec d) (seed lps0 : Vec d) :
    ℕ → MMHState d
  | 0 => ⟨seed, lps0, 0⟩
  | i + 1 => mmhMargStep logpdfs kinds scale z logU i
      (mmhMargIter logpdfs kinds scale z logU seed lps0 i)

/-- MMH (marginal) output: same thinning slice as MH. -/
def mmhMargSamples {d : ℕ} (logpdfs : Fin d → ℚ → ℚ) (kinds : Fin d → PropKind)
    (scale : Vec d) (z : ℕ → Vec d) (logU : ℕ → Vec d) (seed lps0 : Vec d)
    (n jump nburn : ℕ) : List (Vec d) :=
  pySlice ((List.range (n * jump + nburn)).map
      (fun i => (mmhMargIter logpdfs kinds scale z logU seed lps0 i).pos))
    (zeroVec d) nburn (n * jump + nburn) jump

/-- MMH (marginal) acceptance rate: the counter counts up to d acceptances
per outer iteration but is divided by the number of OUTER iterations only. -/
def mmhMargAccRate {d : ℕ} (logpdfs : Fin d → ℚ → ℚ) (kinds : Fin d → PropKind)
    (scale : Vec d) (z : ℕ → Vec d) (logU : ℕ → Vec d) (seed lps0 : Vec d)
    (n jump nburn : ℕ) : ℚ :=
  ((mmhMargIter logpdfs kinds scale z logU seed lps0 (n * jump + nburn - 1)).acc : ℚ) /
    ((n * jump + nburn - 1 : ℕ) : ℚ)

/-- Per-coordinate state of the joint-target MMH inner loop: the working
candidate vector, the accepted-so-far vector, the running cached joint
log value, and the acceptance counter. -/
structure MMHJState (d : ℕ) where
  cand : Vec d
  cur : Vec d
  lp : ℚ
  acc : ℕ

/-- One coordinate update of joint-mode MMH (run_mcmc, algorithm == MMH,
else-branch): propose coordinate j around `samples[i, j]`, evaluate the
joint log-target at the partially updated candidate, and on rejection
write the current coordinate value straight back into the candidate. -/
def mmhJointCoord {d : ℕ} (logpdf : Vec d → ℚ) (origRow : Vec d)
    (kinds : Fin d → PropKind) (scale : Vec d) (z : Vec d) (logU : Vec d)
    (st : MMHJState d) (j : Fin d) : MMHJState d :=
  let c1 := Function.update st.cand j (origRow j + perturb (kinds j) (scale j) (z j))
  let lpc := logpdf c1
  if logU j < lpc - st.lp then
    ⟨c1, Function.update st.cur j (c1 j), lpc, st.acc + 1⟩
  else ⟨Function.update c1 j (st.cur j), st.cur, st.lp, st.acc⟩

/-- One outer joint-mode MMH iteration: fold the coordinate update over the
d coordinates in order, starting from the last row. -/
def mmhJointOuter {d : ℕ} (logpdf : Vec d → ℚ) (kinds : Fin d → PropKind)
    (scale : Vec d) (z : ℕ → Vec d) (logU : ℕ → Vec d) (i : ℕ)
    (row : Vec d) (accIn : ℕ) : Vec d × ℕ :=
  let fin := (List.finRange d).foldl
    (mmhJointCoord logpdf row kinds scale (z i) (logU i)) ⟨row, row, logpdf row, accIn⟩
  (fin.cur, fin.acc)

/-- The joint-mode MMH chain (row, running acceptance count) after i outer
iterations. -/
def mmhJointIter {d : ℕ} (logpdf : Vec d → ℚ) (kinds : Fin d → PropKind)
    (scale : Vec d) (z : ℕ → Vec d) (logU : ℕ → Vec d) (seed : Vec d) :
    ℕ → Vec d × ℕ
  | 0 => (seed, 0)
  | i + 1 =>
    let p := mmhJointIter logpdf kinds scale z logU seed i
    mmhJointOuter logpdf kinds scale z logU i p.1 p.2

/-- MMH (joint) output: same thinning slice as MH. -/
def mmhJointSamples {d : ℕ} (logpdf : Vec d → ℚ) (kinds : Fin d → PropKind)
    (scale : Vec d) (z : ℕ → Vec d) (logU : ℕ → Vec d) (seed : Vec d)
    (n jump nburn : ℕ) : List (Vec d) :=
  pySlice ((List.range (n * jump + nburn)).map
      (fun i => (mmhJointIter logpdf kinds scale z logU seed i).1))
    (zeroVec d) nburn (n * jump + nburn) jump

/-- MMH (joint) acceptance rate. -/
def mmhJointAccRate {d : ℕ} (logpdf : Vec d → ℚ) (kinds : Fin d → PropKind)
    (scale : Vec d) (z : ℕ → Vec d) (logU : ℕ → Vec d) (seed : Vec d)
    (n jump nburn : ℕ) : ℚ :=
  ((mmhJointIter logpdf kinds scale z logU seed (n * jump + nburn - 1)).2 : ℚ) /
    ((n * jump + nburn - 1 : ℕ) : ℚ)

/-! ### Stretch sampler (run_mcmc, algorithm == Stretch) -/

/-- The stretch factor `s = (1 + (scale-1)*random())^2 / scale` (line 1075). -/
def stretchZval {K : Type} [Field K] (a u : K) : K := (1 + (a - 1) * u) ^ 2 / a

/-- The stretch proposal `candidate = s0 + s*(walker - s0)` (line 1076). -/
def stretchCand {K : Type} {d : ℕ} [Field K] (s0 walker : Fin d → K) (z : K) :
    Fin d → K := fun k => s0 k + z * (walker k - s0 k)

/-- Chain indices of `samples[i - M + 2 : i + 1]`, the complementary
ensemble at step i: the current positions of the M-1 walkers other than
the walker being updated (which sits at index i + 1 - M). -/
def stretchCompIdx (M i : ℕ) : List ℕ :=
  (List.range (M - 1)).map (fun t => i + 2 - M + t)

/-- The acceptance threshold
`log(s^(d-1)) + log_p_candidate - log_p_current` (line 1080). -/
def stretchThreshold {K : Type} [Field K] (logF : K → K) (dd : ℕ)
    (z lpc lpw : K) : K := logF (z ^ (dd - 1)) + lpc - lpw

/-- Build the Stretch chain: starting from the M seed walkers (with their
cached log-target values, line 1070), iteration t (source loop index
i = M - 1 + t) updates the walker at chain index t using a companion drawn
from the trailing window of the other M-1 walkers, and appends the new
position together with its cached log value.  Returns the chain and the
acceptance counter.  `c` chooses the companion (`random.choice`), `uS` the
stretch uniform, `logUS` the log of the acceptance uniform. -/
def stretchBuild {d : ℕ} (M : ℕ) (a : ℚ) (logF : ℚ → ℚ) (logpdf : Vec d → ℚ)
    (seeds : List (Vec d × ℚ)) (c : ℕ → ℕ) (uS logUS : ℕ → ℚ) :
    ℕ → List (Vec d × ℚ) × ℕ
  | 0 => (seeds, 0)
  | t + 1 =>
    let prev := stretchBuild M a logF logpdf seeds c uS logUS t
    let xs := prev.1
    let walker := xs.getD t (zeroVec d, 0)
    let s0 := xs.getD (t + 1 + c t % (M - 1)) (zeroVec d, 0)
    let z := stretchZval a (uS t)
    let cand := stretchCand s0.1 walker.1 z
    let lpc := logpdf cand
    if logUS t < stretchThreshold logF d z lpc walker.2 then
      (xs ++ [(cand, lpc)], prev.2 + 1)
    else (xs ++ [(walker.1, walker.2)], prev.2)

/-- The raw Stretch samples array of `nsamples*jump + nburn` rows: the loop
writes rows `M .. nsamples*jump - 1`; the trailing `nburn` rows of the
allocated `np.zeros` array are never written. -/
def stretchSamplesList {d : ℕ} (M : ℕ) (a : ℚ) (logF : ℚ → ℚ)
    (logpdf : Vec d → ℚ) (seeds : List (Vec d × ℚ)) (c : ℕ → ℕ)
    (uS logUS : ℕ → ℚ) (n jump nburn : ℕ) : List (Vec d) :=
  (stretchBuild M a logF logpdf seeds c uS logUS (n * jump - M)).1.map Prod.fst ++
    List.replicate nburn (zeroVec d)

/-- Stretch acceptance rate `n_accepts / (nsamples*jump - ensemble_size)`. -/
def stretchAccRate {d : ℕ} (M : ℕ) (a : ℚ) (logF : ℚ → ℚ) (logpdf : Vec d → ℚ)
    (seeds : List (Vec d × ℚ)) (c : ℕ → ℕ) (uS logUS : ℕ → ℚ)
    (n jump : ℕ) : ℚ :=
  ((stretchBuild M a logF logpdf seeds c uS logUS (n * jump - M)).2 : ℚ) /
    ((n * jump - M : ℕ) : ℚ)

/-- NumPy slice assignment `out[j:j+M] = vals` (vals already clamped):
fails (broadcast error) unless the value list matches the target slot, or
is a single row broadcast over a nonempty slot. -/
def sliceWrite {α : Type} (dflt : α) (M : ℕ) (out : List α) (j : ℕ)
    (vals : List α) : Option (List α) :=
  let leftLen := min M (out.length - j)
  if vals.length = leftLen then
    some (out.take j ++ vals ++ out.drop (j + leftLen))
  else if vals.length = 1 ∧ 1 ≤ leftLen then
    some (out.take j ++ List.replicate leftLen (vals.getD 0 dflt) ++ out.drop (j + leftLen))
  else none

/-- Number of iterations of Python `range(start, stop, step)` for step > 0. -/
def rangeCount (start stop step : ℕ) : ℕ :=
  if step = 0 then 0
  else if stop ≤ start then 0 else (stop - start + step - 1) / step

/-- De-interleaving loop of the Stretch output (run_mcmc lines 1100-1105):
`output = np.zeros((nsamples, d))`, then for
`i in range(jump*M - M, len(samples), jump*M)`:
`output[j:j+M] = samples[i:i+M]; j += M`. -/
def stretchAssembleGo {d : ℕ} (M start step : ℕ) (xs : List (Vec d)) :
    List ℕ → List (Vec d) → Option (List (Vec d))
  | [], out => some out
  | t :: ts, out =>
    match sliceWrite (zeroVec d) M out (M * t) ((xs.drop (start + step * t)).take M) with
    | none => none
    | some out2 => stretchAssembleGo M start step xs ts out2

/-- The assembled Stretch output, or `none` if a slice assignment fails. -/
def stretchAssemble (n d M jump nburn : ℕ) (xs : List (Vec d)) :
    Option (List (Vec d)) :=
  let start := jump * M - M
  let step := jump * M
  stretchAssembleGo M start step xs
    (List.range (rangeCount start (n * jump + nburn) step))
    (List.replicate n (zeroVec d))

/-! ### Counting lemmas for the C1 claim -/

theorem pySlice_length {α : Type} (xs : List α) (dflt : α) (n jump nburn : ℕ)
    (hj : 1 ≤ jump) :
    (pySlice xs dflt nburn (n * jump + nburn) jump).length = n := by
  unfold pySlice
  rw [List.length_map, List.length_range]
  have h1 : n * jump + nburn - nburn = n * jump := by omega
  rw [h1]
  have h2 : n * jump + jump - 1 = (jump - 1) + jump * n := by
    have : jump * n = n * jump := Nat.mul_comm jump n
    omega
  rw [h2, Nat.add_mul_div_left _ _ (by omega : 0 < jump),
    Nat.div_eq_of_lt (by omega : jump - 1 < jump)]
  omega

theorem mhIter_acc_le {d : ℕ} (logpdf : Vec d → ℚ) (kind : PropKind)
    (scale : Vec d) (z : ℕ → Vec d) (logU : ℕ → ℚ) (seed : Vec d) :
    ∀ i, (mhIter logpdf kind scale z logU seed i).acc ≤ i := by
  intro i
  induction i with
  | zero => exact Nat.le_refl 0
  | succ m ih =>
    show (mhStep logpdf kind scale z logU m _).acc ≤ m + 1
    unfold mhStep
    dsimp only
    split
    · exact Nat.add_le_add_right ih 1
    · exact Nat.le_succ_of_le ih

theorem mmhMargIter_acc_le {d : ℕ} (logpdfs : Fin d → ℚ → ℚ)
    (kinds : Fin d → PropKind) (scale : Vec d) (z : ℕ → Vec d)
    (logU : ℕ → Vec d) (seed lps0 : Vec d) :
    ∀ i, (mmhMargIter logpdfs kinds scale z logU seed lps0 i).acc ≤ i * d := by
  intro i
  induction i with
  | zero => simp [mmhMargIter]
  | succ m ih =>
    show (mmhMargStep logpdfs kinds scale z logU m _).acc ≤ (m + 1) * d
    unfold mmhMargStep
    dsimp only
    refine le_trans (Nat.add_le_add ih
      (le_trans (Finset.card_filter_le _ _) (le_of_eq (Finset.card_fin d)))) ?_
    exact le_of_eq (by ring)

theorem mmhJointCoord_acc_le {d : ℕ} (logpdf : Vec d → ℚ) (origRow : Vec d)
    (kinds : Fin d → PropKind) (scale : Vec d) (z logU : Vec d)
    (st : MMHJState d) (j : Fin d) :
    (mmhJointCoord logpdf origRow kinds scale z logU st j).acc ≤ st.acc + 1 := by
  unfold mmhJointCoord
  dsimp only
  split
  · exact Nat.le_refl _
  · exact Nat.le_succ _

theorem mmhJointFold_acc_le {d : ℕ} (logpdf : Vec d → ℚ) (origRow : Vec d)
    (kinds : Fin d → PropKind) (scale : Vec d) (z logU : Vec d) :
    ∀ (l : List (Fin d)) (st : MMHJState d),
      (l.foldl (mmhJointCoord logpdf origRow kinds scale z logU) st).acc ≤
        st.acc + l.length := by
  intro l
  induction l with
  | nil => intro st; exact Nat.le_refl _
  | cons j rest ih =>
    intro st
    rw [List.foldl_cons, List.length_cons]
    refine le_trans (ih (mmhJointCoord logpdf origRow kinds scale z logU st j)) ?_
    have h := mmhJointCoord_acc_le logpdf origRow kinds scale z logU st j
    omega

theorem mmhJointIter_acc_le {d : ℕ} (logpdf : Vec d → ℚ) (kinds : Fin d → PropKind)
    (scale : Vec d) (z logU : ℕ → Vec d) (seed : Vec d) :
    ∀ i, (mmhJointIter logpdf kinds scale z logU seed i).2 ≤ i * d := by
  intro i
  induction i with
  | zero => simp [mmhJointIter]
  | succ m ih =>
    show (mmhJointOuter logpdf kinds scale z logU m _ _).2 ≤ (m + 1) * d
    unfold mmhJointOuter
    dsimp only
    refine le_trans (mmhJointFold_acc_le logpdf _ kinds scale (z m) (logU m)
      (List.finRange d) _) ?_
    rw [List.length_finRange]
    refine le_trans (Nat.add_le_add_right ih d) (le_of_eq (by ring))

theorem stretchBuild_acc_le {d : ℕ} (M : ℕ) (a : ℚ) (logF : ℚ → ℚ)
    (logpdf : Vec d → ℚ) (seeds : List (Vec d × ℚ)) (c : ℕ → ℕ)
    (uS logUS : ℕ → ℚ) :
    ∀ t, (stretchBuild M a logF logpdf seeds c uS logUS t).2 ≤ t := by
  intro t
  induction t with
  | zero => exact Nat.le_refl 0
  | succ m ih =>
    unfold stretchBuild
    dsimp only
    split
    · exact Nat.add_le_add_right ih 1
    · exact Nat.le_succ_of_le ih

theorem ratio_bounds (acc T C : ℕ) (hT : 0 < T) (hacc : acc ≤ C * T) :
    0 ≤ ((acc : ℚ) / (T : ℚ)) ∧ ((acc : ℚ) / (T : ℚ)) ≤ (C : ℚ) := by
  have hT2 : (0 : ℚ) < (T : ℚ) := by exact_mod_cast hT
  constructor
  · exact div_nonneg (by positivity) (le_of_lt hT2)
  · rw [div_le_iff₀ hT2]
    exact_mod_cast hacc

theorem sliceWrite_length {α : Type} (dflt : α) (M : ℕ) (out : List α) (j : ℕ)
    (vals out2 : List α) (h : sliceWrite dflt M out j vals = some out2) :
    out2.length = out.length := by
  unfold sliceWrite at h
  by_cases h1 : vals.length = min M (out.length - j)
  · rw [if_pos h1] at h
    have := Option.some.inj h
    subst this
    simp only [List.length_append, List.length_take, List.length_drop]
    omega
  · rw [if_neg h1] at h
    by_cases h2 : vals.length = 1 ∧ 1 ≤ min M (out.length - j)
    · rw [if_pos h2] at h
      have := Option.some.inj h
      subst this
      simp only [List.length_append, List.length_take, List.length_replicate,
        List.length_drop]
      omega
    · rw [if_neg h2] at h
      exact Option.noConfusion h

theorem stretchAssembleGo_length {d : ℕ} (M start step : ℕ) (xs : List (Vec d)) :
    ∀ (ts : List ℕ) (out out2 : List (Vec d)),
      stretchAssembleGo M start step xs ts out = some out2 →
      out2.length = out.length := by
  intro ts
  induction ts with
  | nil =>
    intro out out2 h
    exact congrArg List.length (Option.some.inj h).symm
  | cons t rest ih =>
    intro out out2 h
    unfold stretchAssembleGo at h
    cases hw : sliceWrite (zeroVec d) M out (M * t) ((xs.drop (start + step * t)).take M) with
    | none => rw [hw] at h; exact Option.noConfusion h
    | some mid =>
      rw [hw] at h
      rw [ih mid out2 h]
      exact sliceWrite_length (zeroVec d) M out (M * t) _ mid hw

theorem stretchAssemble_length {d : ℕ} (n M jump nburn : ℕ) (xs : List (Vec d))
    (out : List (Vec d)) (h : stretchAssemble n d M jump nburn xs = some out) :
    out.length = n := by
  unfold stretchAssemble at h
  rw [stretchAssembleGo_length _ _ _ xs _ _ out h]
  exact List.length_replicate n _

/-- C1 (amended): for every MH, MMH and Stretch run (arbitrary target,
proposal kernels and random draws) with `jump ≥ 1`, at least one proposal
attempt (`nsamples*jump + nburn ≥ 2`, otherwise the acceptance-ratio
division is 0/0), and for Stretch `ensemble_size < nsamples*jump`:
the acceptance ratio is nonnegative; it is at most 1 for MH and Stretch
but only at most d for MMH (the counter counts up to d per-coordinate
acceptances per outer iteration while the divisor counts outer iterations
only); and the returned array has exactly nsamples rows — for Stretch
whenever the de-interleaving slice assignments complete without a NumPy
broadcast error. -/
theorem mcmcCountAndAcceptBounds {d : ℕ}
    (logpdf : Vec d → ℚ) (kind : PropKind) (scale : Vec d) (z : ℕ → Vec d)
    (logU : ℕ → ℚ) (seed : Vec d)
    (logpdfs : Fin d → ℚ → ℚ) (kinds : Fin d → PropKind) (zM logUM : ℕ → Vec d)
    (lps0 : Vec d) (zJ logUJ : ℕ → Vec d)
    (M : ℕ) (a : ℚ) (logF : ℚ → ℚ) (logpdfS : Vec d → ℚ)
    (seeds : List (Vec d × ℚ)) (c : ℕ → ℕ) (uS logUS : ℕ → ℚ)
    (n jump nburn : ℕ)
    (hj : 1 ≤ jump) (hT : 2 ≤ n * jump + nburn) (hM : M < n * jump) :
    (mhSamples logpdf kind scale z logU seed n jump nburn).length = n ∧
    0 ≤ mhAccRate logpdf kind scale z logU seed n jump nburn ∧
    mhAccRate logpdf kind scale z logU seed n jump nburn ≤ 1 ∧
    (mmhMargSamples logpdfs kinds scale zM logUM seed lps0 n jump nburn).length = n ∧
    0 ≤ mmhMargAccRate logpdfs kinds scale zM logUM seed lps0 n jump nburn ∧
    mmhMargAccRate logpdfs kinds scale zM logUM seed lps0 n jump nburn ≤ (d : ℚ) ∧
    (mmhJointSamples logpdf kinds scale zJ logUJ seed n jump nburn).length = n ∧
    0 ≤ mmhJointAccRate logpdf kinds scale zJ logUJ seed n jump nburn ∧
    mmhJointAccRate logpdf kinds scale zJ logUJ seed n jump nburn ≤ (d : ℚ) ∧
    0 ≤ stretchAccRate M a logF logpdfS seeds c uS logUS n jump ∧
    stretchAccRate M a logF logpdfS seeds c uS logUS n jump ≤ 1 ∧
    (∀ out, stretchAssemble n d M jump nburn
        (stretchSamplesList M a logF logpdfS seeds c uS logUS n jump nburn) =
          some out → out.length = n) := by
  have hTpos : 0 < n * jump + nburn - 1 := by omega
  have hSpos : 0 < n * jump - M := by omega
  have hmh := ratio_bounds
    ((mhIter logpdf kind scale z logU seed (n * jump + nburn - 1)).acc)
    (n * jump + nburn - 1) 1 hTpos
    (by rw [Nat.one_mul]; exact mhIter_acc_le logpdf kind scale z logU seed _)
  have hmm := ratio_bounds
    ((mmhMargIter logpdfs kinds scale zM logUM seed lps0 (n * jump + nburn - 1)).acc)
    (n * jump + nburn - 1) d hTpos
    (by rw [Nat.mul_comm d]; exact mmhMargIter_acc_le logpdfs kinds scale zM logUM seed lps0 _)
  have hmj := ratio_bounds
    ((mmhJointIter logpdf kinds scale zJ logUJ seed (n * jump + nburn - 1)).2)
    (n * jump + nburn - 1) d hTpos
    (by rw [Nat.mul_comm d]; exact mmhJointIter_acc_le logpdf kinds scale zJ logUJ seed _)
  have hst := ratio_bounds
    ((stretchBuild M a logF logpdfS seeds c uS logUS (n * jump - M)).2)
    (n * jump - M) 1 hSpos
    (by rw [Nat.one_mul]; exact stretchBuild_acc_le M a logF logpdfS seeds c uS logUS _)
  refine ⟨pySlice_length _ _ n jump nburn hj, hmh.1, ?_,
    pySlice_length _ _ n jump nburn hj, hmm.1, ?_,
    pySlice_length _ _ n jump nburn hj, hmj.1, ?_, hst.1, ?_,
    fun out h => stretchAssemble_length n M jump nburn _ out h⟩
  · exact le_trans hmh.2 (by norm_num)
  · exact hmm.2
  · exact hmj.2
  · exact le_trans hst.2 (by norm_num)

/-- Witness for the amended C1 theorem at a small concrete configuration. -/
theorem mcmcCountAndAcceptBoundsWitness :
    ((1 : ℕ) ≤ 1 ∧ 2 ≤ 2 * 1 + 0 ∧ 1 < 2 * 1) ∧
    (mhSamples (fun _ : Vec 1 => 0) PropKind.Normal (zeroVec 1)
      (fun _ => zeroVec 1) (fun _ => 0) (zeroVec 1) 2 1 0).length = 2 ∧
    mhAccRate (fun _ : Vec 1 => 0) PropKind.Normal (zeroVec 1)
      (fun _ => zeroVec 1) (fun _ => 0) (zeroVec 1) 2 1 0 ≤ 1 := by
  have h := @mcmcCountAndAcceptBounds 1
    (fun _ => 0) PropKind.Normal (zeroVec 1) (fun _ => zeroVec 1) (fun _ => 0)
    (zeroVec 1) (fun _ _ => 0) (fun _ => PropKind.Normal) (fun _ => zeroVec 1)
    (fun _ => zeroVec 1) (zeroVec 1) (fun _ => zeroVec 1) (fun _ => zeroVec 1)
    1 2 (fun q => q) (fun _ => 0) [] (fun _ => 0) (fun _ => 0) (fun _ => 0)
    2 1 0 (by decide) (by decide) (by decide)
  exact ⟨⟨by decide, by decide, by decide⟩, h.1, h.2.2.1⟩

/-- A concrete MMH run: dimension 2, a constant (uniform-like) log-target,
every per-coordinate proposal accepted (the acceptance draws are
log(u) = -1 < 0 = the log-target difference, exactly as a flat target
yields in the code), nsamples = 2, jump = 1, nburn = 0, so one outer
iteration with two per-coordinate acceptances. -/
theorem mmhConstTargetAcc :
    (mmhMargIter (fun _ _ => (0 : ℚ)) (fun _ => PropKind.Normal) (fun _ => 1)
      (fun _ _ => 1) (fun _ _ => -1) (zeroVec 2) (zeroVec 2) 1).acc = 2 := by
  show (mmhMargStep (fun _ _ => (0 : ℚ)) (fun _ => PropKind.Normal) (fun _ => 1)
      (fun _ _ => 1) (fun _ _ => -1) 0 ⟨zeroVec 2, zeroVec 2, 0⟩).acc = 2
  unfold mmhMargStep
  dsimp only
  rw [Finset.filter_true_of_mem (fun j _ => by norm_num [zeroVec])]
  rw [Finset.card_fin]

/-- C1 counterexample: the concrete MMH run above reports an acceptance
ratio of 2, violating the claimed bound `accept_ratio ≤ 1`. -/
theorem mmhAcceptAboveOneCounterexample :
    mmhMargAccRate (fun _ _ => (0 : ℚ)) (fun _ => PropKind.Normal) (fun _ => 1)
      (fun _ _ => 1) (fun _ _ => -1) (zeroVec 2) (zeroVec 2) 2 1 0 = 2 ∧
    ¬ (mmhMargAccRate (fun _ _ => (0 : ℚ)) (fun _ => PropKind.Normal) (fun _ => 1)
      (fun _ _ => 1) (fun _ _ => -1) (zeroVec 2) (zeroVec 2) 2 1 0 ≤ 1) := by
  have h2 : mmhMargAccRate (fun _ _ => (0 : ℚ)) (fun _ => PropKind.Normal)
      (fun _ => 1) (fun _ _ => 1) (fun _ _ => -1) (zeroVec 2) (zeroVec 2) 2 1 0 = 2 := by
    unfold mmhMargAccRate
    norm_num [mmhConstTargetAcc]
  exact ⟨h2, by rw [h2]; norm_num⟩

/-! ### Importance Sampling resampling (IS.resample) -/

/-- Source `size = self.nsamples` when the `size` argument is omitted. -/
def resampleSize (nsamples : ℕ) (sz : Option ℕ) : ℕ := sz.getD nsamples

/-- The index list built by IS.resample from one multinomial draw
`counts` over the weights: each index j < nsamples with a positive count
is repeated `counts j` times, in index order. -/
def resampleIdx (nsamples : ℕ) (counts : ℕ → ℕ) : List ℕ :=
  (List.range nsamples).flatMap
    (fun j => if 0 < counts j then List.replicate (counts j) j else [])

/-- Source `output = self.samples[idx, :]`: the resampled points (method
'multinomial'); `counts` is the external `np.random.multinomial(size,
weights, size=1)[0]` draw, a vector of naturals summing to `size`. -/
def resampleOut {d : ℕ} (samples : List (Vec d)) (counts : ℕ → ℕ) : List (Vec d) :=
  (resampleIdx samples.length counts).map (fun j => samples.getD j (zeroVec d))

theorem resampleIdx_length (counts : ℕ → ℕ) :
    ∀ n, (resampleIdx n counts).length = ∑ j ∈ Finset.range n, counts j := by
  intro n
  induction n with
  | zero => simp [resampleIdx]
  | succ m ih =>
    unfold resampleIdx at ih ⊢
    rw [List.range_succ, List.flatMap_append, List.length_append, ih,
      Finset.sum_range_succ]
    by_cases h : 0 < counts m
    · simp [h]
    · simp [h]
      omega

theorem resampleIdx_mem (counts : ℕ → ℕ) :
    ∀ n j, j ∈ resampleIdx n counts → j < n := by
  intro n
  induction n with
  | zero => intro j h; simp [resampleIdx] at h
  | succ m ih =>
    intro j h
    unfold resampleIdx at h
    rw [List.range_succ, List.flatMap_append, List.mem_append] at h
    cases h with
    | inl h1 => exact Nat.lt_succ_of_lt (ih j h1)
    | inr h2 =>
      simp only [List.flatMap_cons, List.flatMap_nil, List.append_nil] at h2
      by_cases hc : 0 < counts m
      · rw [if_pos hc] at h2
        rw [List.eq_of_mem_replicate h2]
        exact Nat.lt_succ_self m
      · rw [if_neg hc] at h2
        exact absurd h2 (List.not_mem_nil j)

theorem resampleIdx_count (counts : ℕ → ℕ) :
    ∀ n j, (resampleIdx n counts).count j = if j < n then counts j else 0 := by
  intro n
  induction n with
  | zero => intro j; simp [resampleIdx]
  | succ m ih =>
    intro j
    unfold resampleIdx at ih ⊢
    rw [List.range_succ, List.flatMap_append, List.count_append, ih]
    simp only [List.flatMap_cons, List.flatMap_nil, List.append_nil]
    by_cases hc : 0 < counts m
    · rw [if_pos hc, List.count_replicate]
      by_cases hj : j = m
      · subst hj
        simp
      · have hmj : ¬ ((m == j) = true) := by simp [Ne.symm hj]
        rw [if_neg hmj, Nat.add_zero]
        by_cases hlt : j < m
        · rw [if_pos hlt, if_pos (by omega : j < m + 1)]
        · rw [if_neg hlt, if_neg (by omega : ¬ j < m + 1)]
    · rw [if_neg hc]
      have hc0 : counts m = 0 := by omega
      rw [List.count_nil, Nat.add_zero]
      by_cases hj : j = m
      · subst hj
        rw [if_neg (Nat.lt_irrefl j), if_pos (Nat.lt_succ_self j), hc0]
      · by_cases hlt : j < m
        · rw [if_pos hlt, if_pos (by omega : j < m + 1)]
        · rw [if_neg hlt, if_neg (by omega : ¬ j < m + 1)]

/-- C10: with the multinomial method and any size (defaulting to nsamples),
given the external multinomial draw `counts` (naturals summing to the
requested size), resampling returns exactly `size` points, each of which
is a row of the original sample array, and index j of the original array
appears with multiplicity exactly `counts j`. -/
theorem importanceResampleMultinomial {d : ℕ} (samples : List (Vec d))
    (counts : ℕ → ℕ) (sz : Option ℕ)
    (hsum : ∑ j ∈ Finset.range samples.length, counts j =
      resampleSize samples.length sz) :
    (resampleOut samples counts).length = resampleSize samples.length sz ∧
    (∀ v ∈ resampleOut samples counts, v ∈ samples) ∧
    (∀ j, (resampleIdx samples.length counts).count j =
      if j < samples.length then counts j else 0) := by
  refine ⟨?_, ?_, resampleIdx_count counts samples.length⟩
  · unfold resampleOut
    rw [List.length_map, resampleIdx_length counts samples.length, hsum]
  · intro v hv
    unfold resampleOut at hv
    rw [List.mem_map] at hv
    obtain ⟨j, hj, hje⟩ := hv
    have hjlt := resampleIdx_mem counts samples.length j hj
    rw [← hje, List.getD_eq_getElem samples (zeroVec d) hjlt]
    exact List.getElem_mem hjlt

/-- Witness for C10: three resampled points from two originals with
counts (1, 2). -/
theorem importanceResampleMultinomialWitness :
    (∑ j ∈ Finset.range ([fun _ => 0, fun _ => 1] : List (Vec 1)).length,
        (fun j => j + 1) j =
      resampleSize ([fun _ => 0, fun _ => 1] : List (Vec 1)).length (some 3)) ∧
    (resampleOut ([fun _ => 0, fun _ => 1] : List (Vec 1)) (fun j => j + 1)).length =
      resampleSize ([fun _ => 0, fun _ => 1] : List (Vec 1)).length (some 3) := by
  refine ⟨by decide, ?_⟩
  exact (importanceResampleMultinomial ([fun _ => 0, fun _ => 1] : List (Vec 1))
    (fun j => j + 1) (some 3) (by decide)).1

/-! ### IS weighting step (IS.weighting_step), over ℝ -/

/-- Source `log_weights = log_ps - log_qs; weights = exp(log_weights);
return log_weights, weights / sum(weights)`. -/
noncomputable def weightingStep (n : ℕ) (log_ps log_qs : Fin n → ℝ) :
    (Fin n → ℝ) × (Fin n → ℝ) :=
  let log_weights := fun i => log_ps i - log_qs i
  let weights := fun i => Real.exp (log_weights i)
  let sum_w := ∑ i, weights i
  (log_weights, fun i => weights i / sum_w)

/-- C6: for every IS run the normalized weights are elementwise
nonnegative, sum to exactly 1 (in exact arithmetic), and each equals the
exponential of the unnormalized log-weight divided by the total. -/
theorem importanceWeightsNormalized (n : ℕ) (log_ps log_qs : Fin n → ℝ)
    (hn : 0 < n) :
    (∀ i, 0 ≤ (weightingStep n log_ps log_qs).2 i) ∧
    (∑ i, (weightingStep n log_ps log_qs).2 i) = 1 ∧
    (∀ i, (weightingStep n log_ps log_qs).2 i =
      Real.exp (log_ps i - log_qs i) / ∑ j, Real.exp (log_ps j - log_qs j)) := by
  have hpos : (0 : ℝ) < ∑ j, Real.exp (log_ps j - log_qs j) := by
    have : Nonempty (Fin n) := ⟨⟨0, hn⟩⟩
    exact Finset.sum_pos (fun j _ => Real.exp_pos _) Finset.univ_nonempty
  refine ⟨?_, ?_, ?_⟩
  · intro i
    exact div_nonneg (le_of_lt (Real.exp_pos _)) (le_of_lt hpos)
  · show (∑ i, Real.exp (log_ps i - log_qs i) / ∑ j, Real.exp (log_ps j - log_qs j)) = 1
    rw [← Finset.sum_div]
    exact div_self (ne_of_gt hpos)
  · intro i
    rfl

/-- Witness for C6 at n = 1 with a flat target and proposal. -/
theorem importanceWeightsNormalizedWitness :
    0 < 1 ∧ (∑ i, (weightingStep 1 (fun _ => 0) (fun _ => 0)).2 i) = 1 :=
  ⟨Nat.one_pos,
    (importanceWeightsNormalized 1 (fun _ => 0) (fun _ => 0) Nat.one_pos).2.1⟩

/-! ### The pdf-to-log-target canonicalization (C5), over ℝ -/

/-- How the target density is supplied: directly as a log-density
callable, or as a pdf-style callable `f(x, params)`. -/
inductive TargetDensity (α β : Type) where
  | logTarget (f : α → β → ℝ) : TargetDensity α β
  | pdfTarget (f : α → β → ℝ) : TargetDensity α β

/-- The helper defined identically in MCMC.init_mcmc and IS.init_is:
`pdf_value = max(pdf_func(x, params), 10**(-320)); return np.log(pdf_value)`. -/
noncomputable def compute_log_pdf {α β : Type} (pdf_func : α → β → ℝ)
    (x : α) (params : β) : ℝ :=
  Real.log (max (pdf_func x params) ((10 : ℝ) ^ (-320 : ℤ)))

/-- MCMC.init_mcmc: a callable pdf target is wrapped through
`compute_log_pdf`; a log target is used as is. -/
noncomputable def mcmcResolvedLogTarget {α β : Type} :
    TargetDensity α β → (α → β → ℝ)
  | .logTarget f => f
  | .pdfTarget f => fun x params => compute_log_pdf f x params

/-- IS.init_is: the same canonicalization. -/
noncomputable def isResolvedLogTarget {α β : Type} :
    TargetDensity α β → (α → β → ℝ)
  | .logTarget f => f
  | .pdfTarget f => fun x params => compute_log_pdf f x params

theorem floor_pos_lt_one : (0 : ℝ) < (10 : ℝ) ^ (-320 : ℤ) ∧
    (10 : ℝ) ^ (-320 : ℤ) < 1 := by
  constructor
  · positivity
  · rw [zpow_neg, inv_lt_one_iff₀]
    right
    have h : (1 : ℝ) < 10 ^ (320 : ℕ) := one_lt_pow₀ (by norm_num) (by norm_num)
    exact_mod_cast h

/-- C5: whenever the target is supplied as a pdf-style callable, both MCMC
and IS use the log-target `log(max(pdf(x, params), 1e-320))` at every
input; the argument of the logarithm is always strictly positive (no
log-of-zero fault), and a zero density produces the finite negative value
`log(1e-320)`. -/
theorem pdfTargetLogFloor {α β : Type} (f : α → β → ℝ) (x : α) (params : β) :
    mcmcResolvedLogTarget (.pdfTarget f) x params =
      Real.log (max (f x params) ((10 : ℝ) ^ (-320 : ℤ))) ∧
    isResolvedLogTarget (.pdfTarget f) x params =
      Real.log (max (f x params) ((10 : ℝ) ^ (-320 : ℤ))) ∧
    0 < max (f x params) ((10 : ℝ) ^ (-320 : ℤ)) ∧
    (f x params = 0 →
      mcmcResolvedLogTarget (.pdfTarget f) x params =
        Real.log ((10 : ℝ) ^ (-320 : ℤ)) ∧
      mcmcResolvedLogTarget (.pdfTarget f) x params < 0) := by
  refine ⟨rfl, rfl, lt_max_of_lt_right floor_pos_lt_one.1, ?_⟩
  intro hz
  have hmax : max (f x params) ((10 : ℝ) ^ (-320 : ℤ)) =
      (10 : ℝ) ^ (-320 : ℤ) := by
    rw [hz]
    exact max_eq_right (le_of_lt floor_pos_lt_one.1)
  constructor
  · show Real.log (max (f x params) _) = _
    rw [hmax]
  · show Real.log (max (f x params) _) < 0
    rw [hmax]
    exact Real.log_neg floor_pos_lt_one.1 floor_pos_lt_one.2

/-- Witness for C5 at the zero density. -/
theorem pdfTargetLogFloorWitness :
    (fun (_ : ℝ) (_ : ℝ) => (0 : ℝ)) 0 0 = 0 ∧
    mcmcResolvedLogTarget (.pdfTarget (fun (_ : ℝ) (_ : ℝ) => (0 : ℝ))) 0 0 < 0 :=
  ⟨rfl, ((pdfTargetLogFloor (fun (_ : ℝ) (_ : ℝ) => (0 : ℝ)) 0 0).2.2.2 rfl).2⟩

/-! ### C4: the Stretch move, over ℝ with the genuine log/exp -/

/-- C4: in a Stretch step at source loop index i (i ≥ M - 1, ensemble size
M ≥ 3, walker being updated at chain index i + 1 - M):
(1) the complementary ensemble consists of exactly M - 1 chain indices,
(2) all of them lie in the trailing window [i + 2 - M, i] and the updated
walker's index is excluded,
(3) the computed stretch factor equals the spec's Z = ((a-1)U + 1)^2 / a,
(4) the candidate is s0 + Z*(walker - s0) coordinatewise,
(5) for an acceptance uniform v in (0,1) the code's accept test
`log v < log(Z^(d-1)) + log_p(candidate) - log_p(walker)` holds exactly
when `v < Z^(d-1) * exp(log_p(candidate) - log_p(walker))`, and
(6) the Lebesgue measure of accepting uniforms in (0,1) is
min(1, Z^(d-1) * exp(log_p(candidate) - log_p(walker))): the proposal is
accepted with exactly that probability. -/
theorem stretchMoveCorrect (M i dd : ℕ) (a u v lpc lpw : ℝ)
    (s0 walker : Fin dd → ℝ)
    (hM : 3 ≤ M) (hi : M - 1 ≤ i) (hv : 0 < v)
    (hz : 0 < stretchZval a u) :
    (stretchCompIdx M i).length = M - 1 ∧
    ((i + 1 - M) ∉ stretchCompIdx M i ∧
      ∀ r ∈ stretchCompIdx M i, i + 2 - M ≤ r ∧ r ≤ i) ∧
    stretchZval a u = ((a - 1) * u + 1) ^ 2 / a ∧
    (∀ k, stretchCand s0 walker (stretchZval a u) k =
      s0 k + stretchZval a u * (walker k - s0 k)) ∧
    (Real.log v < stretchThreshold Real.log dd (stretchZval a u) lpc lpw ↔
      v < stretchZval a u ^ (dd - 1) * Real.exp (lpc - lpw)) ∧
    MeasureTheory.volume
        {w : ℝ | w ∈ Set.Ioo (0 : ℝ) 1 ∧
          w < stretchZval a u ^ (dd - 1) * Real.exp (lpc - lpw)} =
      ENNReal.ofReal (min 1 (stretchZval a u ^ (dd - 1) * Real.exp (lpc - lpw))) := by
  have hzp : 0 < stretchZval a u ^ (dd - 1) := pow_pos hz (dd - 1)
  have hT : 0 < stretchZval a u ^ (dd - 1) * Real.exp (lpc - lpw) :=
    mul_pos hzp (Real.exp_pos _)
  refine ⟨?_, ⟨?_, ?_⟩, ?_, fun k => rfl, ?_, ?_⟩
  · rw [stretchCompIdx, List.length_map, List.length_range]
  · intro hmem
    rw [stretchCompIdx, List.mem_map] at hmem
    obtain ⟨t, ht, hte⟩ := hmem
    rw [List.mem_range] at ht
    omega
  · intro r hr
    rw [stretchCompIdx, List.mem_map] at hr
    obtain ⟨t, ht, hte⟩ := hr
    rw [List.mem_range] at ht
    omega
  · unfold stretchZval
    ring_nf
  · unfold stretchThreshold
    have hlog : Real.log (stretchZval a u ^ (dd - 1)) + lpc - lpw =
        Real.log (stretchZval a u ^ (dd - 1) * Real.exp (lpc - lpw)) := by
      rw [Real.log_mul (ne_of_gt hzp) (Real.exp_ne_zero _), Real.log_exp]
      ring
    rw [hlog]
    exact Real.log_lt_log_iff hv hT
  · have hset : {w : ℝ | w ∈ Set.Ioo (0 : ℝ) 1 ∧
        w < stretchZval a u ^ (dd - 1) * Real.exp (lpc - lpw)} =
        Set.Ioo (0 : ℝ) (min 1 (stretchZval a u ^ (dd - 1) * Real.exp (lpc - lpw))) := by
      ext w
      simp only [Set.mem_setOf_eq, Set.mem_Ioo, lt_min_iff]
      tauto
    rw [hset, Real.volume_Ioo, sub_zero]

/-- Witness for C4 at M = 3, i = 2, d = 1, a = 2, u = v = 1/2. -/
theorem stretchMoveCorrectWitness :
    ((3 : ℕ) ≤ 3 ∧ (3 : ℕ) - 1 ≤ 2 ∧ (0 : ℝ) < 1 / 2 ∧
      (0 : ℝ) < stretchZval 2 (1 / 2)) ∧
    (stretchCompIdx 3 2).length = 3 - 1 ∧
    stretchZval (2 : ℝ) (1 / 2) = ((2 - 1) * (1 / 2) + 1) ^ 2 / 2 := by
  have hz : (0 : ℝ) < stretchZval 2 (1 / 2) := by
    unfold stretchZval
    norm_num
  have h := stretchMoveCorrect 3 2 1 2 (1 / 2) (1 / 2) 0 0
    (fun _ => 0) (fun _ => 0) (by decide) (by decide) one_half_pos hz
  exact ⟨⟨by decide, by decide, one_half_pos, hz⟩, h.1, h.2.2.1⟩

/-! ### Kriging surrogate (Surrogates.py, class Krig), over ℝ -/

open Matrix

/-- One Gaussian-kernel correlation value:
`exp(sum(-params * (x - s)^2))` over the coordinates. -/
noncomputable def corrGaussAt {dd : ℕ} (θ : Fin dd → ℝ) (x s : Fin dd → ℝ) : ℝ :=
  Real.exp (∑ k, -(θ k) * (x k - s k) ^ 2)

/-- The Gaussian correlation matrix `corr_model(x=S, s=S, params)` at the
design sites themselves: entry (i_s, j_x) is the kernel value between
site j and site i (the source builds the (x, s) stack and transposes). -/
noncomputable def corrGaussTrain {m dd : ℕ} (θ : Fin dd → ℝ)
    (S : Fin m → Fin dd → ℝ) : Matrix (Fin m) (Fin m) ℝ :=
  Matrix.of fun i j => corrGaussAt θ (S j) (S i)

/-- Source `gamma = (c_inv.T @ c_inv) @ (y - F @ beta)` (run_krig line 459),
with `c_inv` the inverse of the Cholesky factor. -/
def krigGamma {m pb q : ℕ} (c_inv : Matrix (Fin m) (Fin m) ℝ)
    (f : Matrix (Fin m) (Fin pb) ℝ) (y : Matrix (Fin m) (Fin q) ℝ)
    (beta : Matrix (Fin pb) (Fin q) ℝ) : Matrix (Fin m) (Fin q) ℝ :=
  (c_invᵀ * c_inv) * (y - f * beta)

/-- Source `y = fx @ beta + rx.T @ gamma` (Krig.interpolate line 472). -/
def krigPredict {nx m pb q : ℕ} (fx : Matrix (Fin nx) (Fin pb) ℝ)
    (rx : Matrix (Fin m) (Fin nx) ℝ) (beta : Matrix (Fin pb) (Fin q) ℝ)
    (gamma : Matrix (Fin m) (Fin q) ℝ) : Matrix (Fin nx) (Fin q) ℝ :=
  fx * beta + rxᵀ * gamma

/-- C7: for every fitted Kriging model whose Gaussian correlation matrix R
at the fitted hyperparameters has an invertible Cholesky factor C (the
positive-definite case: `C Cᵀ = R`), querying `interpolate` at the model's
own training sites returns the training values exactly:
`F β + Rᵀ (C⁻ᵀ C⁻¹)(Y - F β) = Y` for the fitted β and γ. -/
theorem krigInterpolatesTrainingData {m pb q dd : ℕ} (θ : Fin dd → ℝ)
    (S : Fin m → Fin dd → ℝ) (C : Matrix (Fin m) (Fin m) ℝ)
    (F : Matrix (Fin m) (Fin pb) ℝ) (Y : Matrix (Fin m) (Fin q) ℝ)
    (beta : Matrix (Fin pb) (Fin q) ℝ)
    (hChol : C * Cᵀ = corrGaussTrain θ S) (hU : IsUnit C.det) :
    krigPredict F (corrGaussTrain θ S) beta (krigGamma C⁻¹ F Y beta) = Y := by
  have hRsymm : (corrGaussTrain θ S)ᵀ = corrGaussTrain θ S := by
    rw [← hChol, Matrix.transpose_mul, Matrix.transpose_transpose]
  have hUdet : IsUnit (corrGaussTrain θ S).det := by
    rw [← hChol, Matrix.det_mul, Matrix.det_transpose]
    exact hU.mul hU
  have hRinv : (C⁻¹)ᵀ * C⁻¹ = (corrGaussTrain θ S)⁻¹ := by
    rw [← hChol, Matrix.mul_inv_rev, Matrix.transpose_nonsing_inv]
  unfold krigPredict krigGamma
  rw [hRsymm, hRinv, ← Matrix.mul_assoc,
    Matrix.mul_nonsing_inv _ hUdet, Matrix.one_mul]
  abel

/-- Witness for C7: one training site at the origin in one dimension, where
the Gaussian correlation matrix is the 1x1 identity and C = 1. -/
theorem krigInterpolatesTrainingDataWitness :
    ((1 : Matrix (Fin 1) (Fin 1) ℝ) * (1 : Matrix (Fin 1) (Fin 1) ℝ)ᵀ =
        corrGaussTrain (fun _ : Fin 1 => 1) (fun _ _ => 0) ∧
      IsUnit (1 : Matrix (Fin 1) (Fin 1) ℝ).det) ∧
    krigPredict (1 : Matrix (Fin 1) (Fin 1) ℝ)
        (corrGaussTrain (fun _ : Fin 1 => 1) (fun _ _ => 0))
        (1 : Matrix (Fin 1) (Fin 1) ℝ)
        (krigGamma ((1 : Matrix (Fin 1) (Fin 1) ℝ)⁻¹) (1 : Matrix (Fin 1) (Fin 1) ℝ)
          (1 : Matrix (Fin 1) (Fin 1) ℝ) (1 : Matrix (Fin 1) (Fin 1) ℝ)) = 1 := by
  have hC : (1 : Matrix (Fin 1) (Fin 1) ℝ) * (1 : Matrix (Fin 1) (Fin 1) ℝ)ᵀ =
      corrGaussTrain (fun _ : Fin 1 => 1) (fun _ _ => 0) := by
    ext i j
    rw [Matrix.transpose_one, Matrix.mul_one]
    have hij : i = j := Subsingleton.elim i j
    subst hij
    simp [corrGaussTrain, corrGaussAt, Matrix.one_apply]
  have hU : IsUnit (1 : Matrix (Fin 1) (Fin 1) ℝ).det := by
    rw [Matrix.det_one]; exact isUnit_one
  exact ⟨⟨hC, hU⟩,
    krigInterpolatesTrainingData (fun _ : Fin 1 => 1) (fun _ _ => 0) 1 1 1 1 hC hU⟩

/-! ### C9: Kriging pre-optimization guard and likelihood sentinel

The `np.linalg` calls (det, cholesky, inv, qr, solve) are the external
LAPACK oracle, passed in as functions; `cholesky` returns `none` exactly
when LAPACK raises LinAlgError.  Floats are exact rationals; `logF` and
`log2pi` stand for the float `np.log` and `np.log(2*np.pi)`. -/

/-- The pre-optimization guard of Krig.run_krig (lines 372-376):
`while det(corr_model(s, s, params)) < 1e-12: params = 1.5 * params`,
modelled with explicit fuel (the source loop has no bound and need not
terminate). -/
def inflateLoop {m nn : ℕ} (detF : Matrix (Fin m) (Fin m) ℚ → ℚ)
    (corrM : (Fin nn → ℚ) → Matrix (Fin m) (Fin m) ℚ) :
    ℕ → (Fin nn → ℚ) → Option (Fin nn → ℚ)
  | 0, _ => none
  | fuel + 1, p =>
    if detF (corrM p) < 1 / 10 ^ 12 then
      inflateLoop detF corrM fuel (fun i => 3 / 2 * p i)
    else some p

/-- The likelihood evaluation handed to the optimizer (Surrogates.py,
log_likelihood, lines 380-423).  The first Cholesky is guarded by
try/except and by the zero-diagonal-product check, both returning the
`(np.inf, np.zeros(n))` sentinel; the second Cholesky (of FᵀR⁻¹F inside
the gradient loop, executed only when n ≥ 1) is NOT guarded: its failure
propagates as an exception (`Except.error`). -/
def logLik {m pb nn : ℕ}
    (cholF : Matrix (Fin m) (Fin m) ℚ → Option (Matrix (Fin m) (Fin m) ℚ))
    (invF : Matrix (Fin m) (Fin m) ℚ → Matrix (Fin m) (Fin m) ℚ)
    (qrF : Matrix (Fin m) (Fin pb) ℚ →
      Matrix (Fin m) (Fin pb) ℚ × Matrix (Fin pb) (Fin pb) ℚ)
    (solveF : Matrix (Fin pb) (Fin pb) ℚ → Matrix (Fin pb) (Fin 1) ℚ →
      Matrix (Fin pb) (Fin 1) ℚ)
    (cholF2 : Matrix (Fin pb) (Fin pb) ℚ → Option (Matrix (Fin pb) (Fin pb) ℚ))
    (invF2 : Matrix (Fin pb) (Fin pb) ℚ → Matrix (Fin pb) (Fin pb) ℚ)
    (logF : ℚ → ℚ) (log2pi : ℚ)
    (corrM : (Fin nn → ℚ) → Matrix (Fin m) (Fin m) ℚ)
    (corrDM : (Fin nn → ℚ) → Fin nn → Matrix (Fin m) (Fin m) ℚ)
    (f : Matrix (Fin m) (Fin pb) ℚ) (y : Matrix (Fin m) (Fin 1) ℚ)
    (p0 : Fin nn → ℚ) : Except Unit (WithTop ℚ × (Fin nn → ℚ)) :=
  match cholF (corrM p0) with
  | none => Except.ok (⊤, fun _ => 0)
  | some cc =>
    if (∏ i, cc i i) = 0 then Except.ok (⊤, fun _ => 0)
    else
      let c_in := invF cc
      let r_in := c_inᵀ * c_in
      let f_das := c_in * f
      let y_das := c_in * y
      let qg := qrF f_das
      let bt := solveF qg.2 (qg.1ᵀ * y_das)
      let tmp := y_das - f_das * bt
      let alpha := r_in * tmp
      let t4 := tmpᵀ * alpha
      let ll := (logF (∏ i, cc i i) +
        (m : ℚ) * logF ((∑ i, ∑ j, t4 i j) / (m : ℚ)) + (m : ℚ) * log2pi) / 2
      if nn = 0 then Except.ok ((ll : ℚ), fun _ => 0)
      else
        match cholF2 (fᵀ * (r_in * f)) with
        | none => Except.error ()
        | some f2 =>
          let f_in := invF2 f2
          let fr_bar := f_inᵀ * f_in
          let fr := f * (fr_bar * fᵀ)
          Except.ok ((ll : ℚ), fun i =>
            let dri := corrDM p0 i
            let t1 := Matrix.trace (r_in * dri)
            let r_bar := r_in * (dri * r_in)
            let t2m := (2 : ℚ) • (tmpᵀ *
              (r_in * (fr * (r_in * ((fr * r_in - 1) * y_das)))))
            let t3m := tmpᵀ * (r_in * tmp)
            let t4m := tmpᵀ * (r_bar * tmp)
            1 / 2 * (t1 - ((m : ℚ) / t3m 0 0) * (t2m 0 0 - t4m 0 0)))

theorem inflateLoop_spec {m nn : ℕ} (detF : Matrix (Fin m) (Fin m) ℚ → ℚ)
    (corrM : (Fin nn → ℚ) → Matrix (Fin m) (Fin m) ℚ) :
    ∀ (fuel : ℕ) (p q : Fin nn → ℚ),
      inflateLoop detF corrM fuel p = some q →
      ¬ (detF (corrM q) < 1 / 10 ^ 12) ∧
      ∃ k, q = (fun i => (3 / 2 : ℚ) ^ k * p i) ∧
        ∀ j < k, detF (corrM (fun i => (3 / 2 : ℚ) ^ j * p i)) < 1 / 10 ^ 12 := by
  intro fuel
  induction fuel with
  | zero => intro p q h; exact Option.noConfusion h
  | succ fl ih =>
    intro p q h
    unfold inflateLoop at h
    by_cases hc : detF (corrM p) < 1 / 10 ^ 12
    · rw [if_pos hc] at h
      obtain ⟨hstop, k, hq, hall⟩ := ih (fun i => 3 / 2 * p i) q h
      refine ⟨hstop, k + 1, ?_, ?_⟩
      · rw [hq]
        funext i
        ring
      · intro j hj
        cases j with
        | zero =>
          have hp : (fun i => (3 / 2 : ℚ) ^ 0 * p i) = p := by
            funext i; rw [pow_zero, one_mul]
          rw [hp]
          exact hc
        | succ j2 =>
          have hfun : (fun i => (3 / 2 : ℚ) ^ (j2 + 1) * p i) =
              (fun i => (3 / 2 : ℚ) ^ j2 * (3 / 2 * p i)) := by
            funext i; ring
          rw [hfun]
          exact hall j2 (by omega)
    · rw [if_neg hc] at h
      have hq : p = q := Option.some.inj h
      subst hq
      refine ⟨hc, 0, ?_, fun j hj => absurd hj (Nat.not_lt_zero j)⟩
      funext i
      rw [pow_zero, one_mul]

/-- C9: (a) the pre-optimization guard multiplies the hyperparameter vector
by 1.5 exactly as long as the determinant of the correlation matrix stays
below 1e-12 (every intermediate vector violated the bound, the returned one
satisfies it); (b, c) the likelihood evaluation returns the infinite-cost
sentinel with a zero gradient — never an exception — whenever the Cholesky
factorization of the correlation matrix fails, or succeeds with a zero
product of diagonal entries. -/
theorem krigDegeneracyGuards {m pb nn : ℕ}
    (detF : Matrix (Fin m) (Fin m) ℚ → ℚ)
    (cholF : Matrix (Fin m) (Fin m) ℚ → Option (Matrix (Fin m) (Fin m) ℚ))
    (invF : Matrix (Fin m) (Fin m) ℚ → Matrix (Fin m) (Fin m) ℚ)
    (qrF : Matrix (Fin m) (Fin pb) ℚ →
      Matrix (Fin m) (Fin pb) ℚ × Matrix (Fin pb) (Fin pb) ℚ)
    (solveF : Matrix (Fin pb) (Fin pb) ℚ → Matrix (Fin pb) (Fin 1) ℚ →
      Matrix (Fin pb) (Fin 1) ℚ)
    (cholF2 : Matrix (Fin pb) (Fin pb) ℚ → Option (Matrix (Fin pb) (Fin pb) ℚ))
    (invF2 : Matrix (Fin pb) (Fin pb) ℚ → Matrix (Fin pb) (Fin pb) ℚ)
    (logF : ℚ → ℚ) (log2pi : ℚ)
    (corrM : (Fin nn → ℚ) → Matrix (Fin m) (Fin m) ℚ)
    (corrDM : (Fin nn → ℚ) → Fin nn → Matrix (Fin m) (Fin m) ℚ)
    (f : Matrix (Fin m) (Fin pb) ℚ) (y : Matrix (Fin m) (Fin 1) ℚ)
    (fuel : ℕ) (p q : Fin nn → ℚ)
    (ha : inflateLoop detF corrM fuel p = some q) :
    (¬ (detF (corrM q) < 1 / 10 ^ 12) ∧
      ∃ k, q = (fun i => (3 / 2 : ℚ) ^ k * p i) ∧
        ∀ j < k, detF (corrM (fun i => (3 / 2 : ℚ) ^ j * p i)) < 1 / 10 ^ 12) ∧
    (∀ p0, cholF (corrM p0) = none →
      logLik cholF invF qrF solveF cholF2 invF2 logF log2pi corrM corrDM f y p0 =
        Except.ok (⊤, fun _ => 0)) ∧
    (∀ p0 cc, cholF (corrM p0) = some cc → (∏ i, cc i i) = 0 →
      logLik cholF invF qrF solveF cholF2 invF2 logF log2pi corrM corrDM f y p0 =
        Except.ok (⊤, fun _ => 0)) := by
  refine ⟨inflateLoop_spec detF corrM fuel p q ha, ?_, ?_⟩
  · intro p0 hnone
    unfold logLik
    rw [hnone]
  · intro p0 cc hsome hzero
    unfold logLik
    rw [hsome]
    simp only [hzero, if_pos]

/-- Witness for C9 with trivial oracles: a unit determinant stops the
inflation loop immediately, and a failing Cholesky oracle yields the
sentinel. -/
theorem krigDegeneracyGuardsWitness :
    @inflateLoop 1 1 (fun _ => 1) (fun _ => 1) 1 (fun _ => 1) =
      some (fun _ => 1) ∧
    @logLik 1 1 1 (fun _ => none) id (fun fd => (fd, 1)) (fun _ b => b)
      (fun _ => none) id id 0 (fun _ => 1) (fun _ _ => 1) 1 1
      (fun _ => 1) = Except.ok (⊤, fun _ => 0) := by
  have ha : @inflateLoop 1 1 (fun _ => 1) (fun _ => 1) 1
      (fun _ => 1) = some (fun _ => 1) := by
    unfold inflateLoop
    rw [if_neg (by norm_num)]
  exact ⟨ha,
    (@krigDegeneracyGuards 1 1 1 (fun _ => 1) (fun _ => none) id (fun fd => (fd, 1))
      (fun _ b => b) (fun _ => none) id id 0 (fun _ => 1)
      (fun _ _ => 1) 1 1 1 (fun _ => 1) (fun _ => 1) ha).2.1 (fun _ => 1) rfl⟩

end UQpy
